import Mathlib

/-!
# Verification of the garden task-graph layer

Shallow embedding of the parts of `garden-service` that the checked claims
are about:

* the `BuildCommand` action and its watch-mode `changeHandler`
  (`src/garden-service/src/commands/build.ts`),
* the config-graph dependants query and the build-task factory (modelled
  from the spec where the implementation is not part of the inspected
  sources),
* the execution engine's dedup and failure-propagation behaviour (modelled
  from the spec),
* `enterpriseInit` (`src/garden-service/src/enterprise/init.ts`),
* the `Kubectl` wrapper's argument preparation
  (`src/garden-service/src/plugins/kubernetes/kubectl.ts`),
* `RunWorkflowCommand` (`src/garden-service/src/commands/run/workflow.ts`).
-/

namespace Garden

/-- A dependency-graph snapshot restricted to what the claims need: the
module names and the build-dependency edges.  An edge `(a, b)` means
"module `a` has a build dependency on module `b`". -/
structure ConfigGraph where
  modules : List String
  buildDeps : List (String × String)
deriving DecidableEq, Repr

/-- Direct build dependants of `n`: sources of edges pointing at `n`. -/
def directDependants (g : ConfigGraph) (n : String) : List String :=
  (g.buildDeps.filter (fun e => e.2 == n)).map (fun e => e.1)

/-- `DependsOn g a b`: module `a` transitively build-depends on module `b`
(equivalently, `a` is a transitive build dependant of `b`). -/
inductive DependsOn (g : ConfigGraph) : String → String → Prop
  | direct {a b : String} : (a, b) ∈ g.buildDeps → DependsOn g a b
  | step {a b c : String} : (a, c) ∈ g.buildDeps → DependsOn g c b → DependsOn g a b

/-- Visit one reversed edge: if its target is already reached and its
source not yet visited, add the source. -/
def addEdge (acc : List String) (e : String × String) : List String :=
  if e.2 ∈ acc ∧ e.1 ∉ acc then e.1 :: acc else acc

/-- One pass of the reachability traversal over reversed edges: add the
source of every edge whose target is already reached (short-circuiting on
already-visited nodes). -/
def closeStep (g : ConfigGraph) (s : List String) : List String :=
  g.buildDeps.foldl addEdge s

/-- All nodes reachable from `n` along reversed build edges, `n` included.
Iterating one more pass than there are edges guarantees a fixpoint. -/
def reachableFrom (g : ConfigGraph) (n : String) : List String :=
  (closeStep g)^[g.buildDeps.length + 1] [n]

/-- The options record passed to `ConfigGraph.getDependants`, mirroring
`{ nodeType, name, recursive }` in the source. -/
structure DependantsQuery where
  nodeType : String
  name : String
  recursive : Bool
deriving DecidableEq, Repr

/-- Modelled from the spec: `ConfigGraph.getDependants` is not among the
inspected sources (only its call sites are).  Per the spec it returns the
direct dependants when `recursive` is false and the full transitive
closure, computed by a reachability traversal over reversed edges with
short-circuiting on visited nodes, when `recursive` is true.  Only build
edges are modelled, matching the `nodeType: "build"` queries the claims
concern. -/
def ConfigGraph.getDependants (g : ConfigGraph) (q : DependantsQuery) : List String :=
  if q.nodeType == "build" then
    if q.recursive then (reachableFrom g q.name).filter (fun m => !(m == q.name))
    else directDependants g q.name
  else []

/-- A build task as the claims need it: the target module, the graph
snapshot it was constructed against, and the `force` flag. -/
structure BuildTask where
  moduleName : String
  graph : ConfigGraph
  force : Bool
deriving DecidableEq, Repr

/-- Modelled from the spec: `BuildTask.factory` (`src/tasks/build.ts`) is
not among the inspected sources.  Per the spec the task factory produces,
for a node and a graph, one task for that node; the source returns a list
(flattened by callers), so the model returns a singleton list. -/
def BuildTask.factory (graph : ConfigGraph) (moduleName : String) (force : Bool) :
    List BuildTask :=
  [{ moduleName := moduleName, graph := graph, force := force }]

/-- The `changeHandler` of `BuildCommand.action`: on a change notification
for `moduleName`, query the new graph for recursive build dependants,
keep the changed module and those dependants that are in the originally
requested `moduleNames`, and build `force = true` tasks for them.
Faithful to the source, the factory is called with the original `graph`
captured by the closure, not with `newGraph`. -/
def changeHandler (graph : ConfigGraph) (moduleNames : List String)
    (newGraph : ConfigGraph) (moduleName : String) : List BuildTask :=
  let deps := newGraph.getDependants { nodeType := "build", name := moduleName, recursive := true }
  ((([moduleName] ++ deps).filter (fun m => m ∈ moduleNames)).map
    (fun m => BuildTask.factory graph m true)).flatten

/-- Modelled from the spec: `ConfigGraph.getModules` is not among the
inspected sources.  With no name filter it returns all modules; with a
filter it returns the modules whose names are listed. -/
def ConfigGraph.getModules (g : ConfigGraph) (names : Option (List String)) : List String :=
  match names with
  | none => g.modules
  | some ns => g.modules.filter (fun m => m ∈ ns)

/-- The initial tasks of `BuildCommand.action`: one factory call per
requested module, with the caller-supplied `force` flag. -/
def buildInitialTasks (graph : ConfigGraph) (argsModules : Option (List String))
    (force : Bool) : List BuildTask :=
  ((graph.getModules argsModules).map (fun m => BuildTask.factory graph m force)).flatten

/-! ### Execution-engine dedup model -/

/-- The dedup key of a task: kind, target name and content/dependency
version fingerprint. -/
structure TaskKey where
  kind : String
  name : String
  version : String
deriving DecidableEq, Repr

/-- An observable scheduler event: the submission of a task for a key, or
the completion (with a result value) of the execution in flight for a
key. -/
inductive EngineEvent where
  | submit (k : TaskKey)
  | complete (k : TaskKey) (r : Nat)
deriving DecidableEq, Repr

/-- Engine-internal execution state: the keys currently in flight, the
recorded results, and the log of executions that were started. -/
structure EngineState where
  inFlight : List TaskKey
  results : List (TaskKey × Nat)
  started : List TaskKey
deriving DecidableEq, Repr

def EngineState.init : EngineState :=
  { inFlight := [], results := [], started := [] }

/-- Modelled from the spec: the execution engine (the task-graph
scheduler) is not among the inspected sources.  Per the spec, a submitted
task whose dedup key is already in flight or already has a recorded
result joins the existing run instead of starting a new execution;
otherwise an execution starts for that key.  A completion records the
result for an in-flight key and takes it out of flight. -/
def engineStep (s : EngineState) (ev : EngineEvent) : EngineState :=
  match ev with
  | .submit k =>
    if k ∈ s.inFlight ∨ k ∈ s.results.map Prod.fst then s
    else { s with inFlight := k :: s.inFlight, started := k :: s.started }
  | .complete k r =>
    if k ∈ s.inFlight then
      { s with inFlight := s.inFlight.erase k, results := (k, r) :: s.results }
    else s

/-- Run the engine over a sequence of interleaved events. -/
def engineRun (evs : List EngineEvent) : EngineState :=
  evs.foldl engineStep EngineState.init

/-! ### Execution-engine failure-propagation model -/

/-- The kind of a recorded task result. -/
inductive ResultKind where
  | success
  | failed
  | skippedDependencyFailure
deriving DecidableEq, Repr

/-- Modelled from the spec: the scheduling loop of the execution engine is
not among the inspected sources.  Tasks are given in a valid execution
order together with their dependency keys; a task whose dependencies all
have recorded successful results has its execution hook invoked (success
or failure as the hook decides), any other task is recorded as
skipped-due-to-dependency-failure without invoking the hook.  Returns the
recorded results and the keys whose hook was invoked. -/
def processTasks (hook : String → Bool) :
    List (String × List String) → List (String × ResultKind) → List String →
      List (String × ResultKind) × List String
  | [], acc, inv => (acc, inv)
  | (k, ds) :: rest, acc, inv =>
    if ds.all (fun d => acc.lookup d == some ResultKind.success) then
      processTasks hook rest (acc ++ [(k, if hook k then .success else .failed)]) (inv ++ [k])
    else
      processTasks hook rest (acc ++ [(k, .skippedDependencyFailure)]) inv

/-- One engine round over a closed task set, starting from empty state. -/
def engineRound (hook : String → Bool) (tasks : List (String × List String)) :
    List (String × ResultKind) × List String :=
  processTasks hook tasks [] []

/-- `TaskDependsOn tasks a b`: task `a` transitively depends on task `b`
through the dependency-key lists of the tasks in `tasks`. -/
inductive TaskDependsOn (tasks : List (String × List String)) : String → String → Prop
  | direct {a b : String} {ds : List String} :
      (a, ds) ∈ tasks → b ∈ ds → TaskDependsOn tasks a b
  | step {a c b : String} {ds : List String} :
      (a, ds) ∈ tasks → c ∈ ds → TaskDependsOn tasks c b → TaskDependsOn tasks a b

/-! ### enterpriseInit -/

/-- The error thrown by `enterpriseInit` when a client auth token is
stored but the project configuration is incomplete; it carries one error
message per missing field. -/
structure ConfigurationError where
  errorMessages : List String
deriving DecidableEq, Repr

/-- The value `enterpriseInit` resolves to, together with observation
flags for the calls it made to its collaborators. -/
structure EnterpriseInitResult where
  clientAuthToken : Option String
  secrets : List (String × String)
  warnedInvalidToken : Bool
  checkedToken : Bool
  fetchedSecrets : Bool
deriving DecidableEq, Repr

/-- JavaScript truthiness of an optional string field, as used by
`if (clientAuthToken)` and `!domain || !projectId` in the source. -/
def truthy : Option String → Bool
  | none => false
  | some s => !(s == "")

/-- `enterpriseInit` from `src/garden-service/src/enterprise/init.ts`.
The awaited collaborators are passed as parameters: `clientAuthToken` is
what `readAuthToken` returned, `tokenIsValid` is what
`checkClientAuthToken` would return, and `backendSecrets` is what
`getSecrets` would return.  The result records which collaborators were
actually called. -/
def enterpriseInit (clientAuthToken domain projectId : Option String)
    (tokenIsValid : Bool) (backendSecrets : List (String × String)) :
    Except ConfigurationError EnterpriseInitResult :=
  if truthy clientAuthToken then
    if !truthy domain || !truthy projectId then
      let errorMessages : List String :=
        (if !truthy domain then ["project.domain is not set"] else []) ++
          (if !truthy projectId then ["project.id is not set"] else [])
      if errorMessages.length > 0 then
        .error { errorMessages := errorMessages }
      else
        .ok { clientAuthToken := clientAuthToken, secrets := [], warnedInvalidToken := false,
              checkedToken := false, fetchedSecrets := false }
    else
      if tokenIsValid then
        .ok { clientAuthToken := clientAuthToken, secrets := backendSecrets,
              warnedInvalidToken := false, checkedToken := true, fetchedSecrets := true }
      else
        .ok { clientAuthToken := clientAuthToken, secrets := [], warnedInvalidToken := true,
              checkedToken := true, fetchedSecrets := false }
  else
    .ok { clientAuthToken := clientAuthToken, secrets := [], warnedInvalidToken := false,
          checkedToken := false, fetchedSecrets := false }

/-! ### Kubectl argument preparation -/

/-- The provider configuration fields `Kubectl.prepareArgs` reads. -/
structure KubectlProviderConfig where
  context : String
  kubeconfig : Option String
deriving DecidableEq, Repr

/-- The per-call parameters of the `Kubectl` wrapper methods (`namespace`
is named `ns` because `namespace` is reserved in Lean). -/
structure KubectlParams where
  ns : Option String
  configPath : Option String
  args : List String
deriving DecidableEq, Repr

/-- An optional `--flag=value` argument. -/
def optArg (flag : String) : Option String → List String
  | none => []
  | some v => [flag ++ v]

/-- `Kubectl.prepareArgs` from
`src/garden-service/src/plugins/kubernetes/kubectl.ts`: build the option
list `--context=`, then `--kubeconfig=` when the provider has one, then
`--namespace=` when one is given, then `--kubeconfig=` for an explicit
`configPath`, and prepend it to the caller's arguments. -/
def prepareArgs (provider : KubectlProviderConfig) (p : KubectlParams) : List String :=
  (["--context=" ++ provider.context]
      ++ optArg "--kubeconfig=" provider.kubeconfig
      ++ optArg "--namespace=" p.ns
      ++ optArg "--kubeconfig=" p.configPath)
    ++ p.args

/-- The five public `Kubectl` wrapper methods. -/
inductive KubectlMethod where
  | stdout
  | exec
  | spawn
  | spawnAndWait
  | json
deriving DecidableEq, Repr

/-- The final kubectl argument vector each wrapper method produces:
`stdout`, `exec`, `spawn` and `spawnAndWait` call `prepareArgs` on the
given params; `json` first appends `--output=json` to the caller's
arguments unless already present, then goes through `stdout`. -/
def kubectlArgv (m : KubectlMethod) (provider : KubectlProviderConfig)
    (p : KubectlParams) : List String :=
  match m with
  | .json =>
    prepareArgs provider
      { p with args := if "--output=json" ∈ p.args then p.args else p.args ++ ["--output=json"] }
  | _ => prepareArgs provider p

/-! ### RunWorkflowCommand -/

/-- `RunWorkflowCommand.action`'s step loop, modelled over the outcomes of
each step's command (`Except.error` when `runStepCommand` throws).  Steps
are numbered from `i`; returns the indices of the steps whose command was
invoked, and the first error thrown, which aborts the loop. -/
def runWorkflowSteps : List (Except String Unit) → Nat → List Nat × Option String
  | [], _ => ([], none)
  | o :: rest, i =>
    match o with
    | .error e => ([i], some e)
    | .ok _ =>
      let r := runWorkflowSteps rest (i + 1)
      (i :: r.1, r.2)

/-- Run a workflow's steps from the first one. -/
def runWorkflow (steps : List (Except String Unit)) : List Nat × Option String :=
  runWorkflowSteps steps 0

/-! ### Correctness of the reachability traversal -/

theorem subset_addEdge (acc : List String) (e : String × String) : acc ⊆ addEdge acc e := by
  unfold addEdge
  split
  · exact fun x hx => List.mem_cons_of_mem _ hx
  · exact List.Subset.refl _

theorem subset_foldl_addEdge (l : List (String × String)) (s : List String) :
    s ⊆ l.foldl addEdge s := by
  induction l generalizing s with
  | nil => exact List.Subset.refl _
  | cons e l ih => exact List.Subset.trans (subset_addEdge s e) (ih (addEdge s e))

theorem length_le_addEdge (acc : List String) (e : String × String) :
    acc.length ≤ (addEdge acc e).length := by
  unfold addEdge
  split
  · simp
  · exact le_refl _

theorem length_le_foldl_addEdge (l : List (String × String)) (s : List String) :
    s.length ≤ (l.foldl addEdge s).length := by
  induction l generalizing s with
  | nil => exact le_refl _
  | cons e l ih => exact le_trans (length_le_addEdge s e) (ih (addEdge s e))

theorem foldl_addEdge_fix_or_grow (l : List (String × String)) (s : List String) :
    l.foldl addEdge s = s ∨ s.length < (l.foldl addEdge s).length := by
  induction l generalizing s with
  | nil => exact Or.inl rfl
  | cons e l ih =>
    by_cases h : e.2 ∈ s ∧ e.1 ∉ s
    · right
      have h1 : addEdge s e = e.1 :: s := if_pos h
      have h2 : (e.1 :: s).length ≤ (l.foldl addEdge (e.1 :: s)).length :=
        length_le_foldl_addEdge l (e.1 :: s)
      simp only [List.foldl_cons, h1]
      simp only [List.length_cons] at h2
      omega
    · have h1 : addEdge s e = s := if_neg h
      simp only [List.foldl_cons, h1]
      exact ih s

theorem nodup_subset_foldl_addEdge (u : List String) (l : List (String × String))
    (s : List String) (hl : ∀ e ∈ l, e.1 ∈ u) (hnd : s.Nodup) (hsub : s ⊆ u) :
    (l.foldl addEdge s).Nodup ∧ l.foldl addEdge s ⊆ u := by
  induction l generalizing s with
  | nil => exact ⟨hnd, hsub⟩
  | cons e l ih =>
    simp only [List.foldl_cons]
    by_cases h : e.2 ∈ s ∧ e.1 ∉ s
    · have h1 : addEdge s e = e.1 :: s := if_pos h
      rw [h1]
      exact ih _ (fun e' he' => hl e' (List.mem_cons_of_mem _ he'))
        (List.nodup_cons.mpr ⟨h.2, hnd⟩)
        (List.cons_subset.mpr ⟨hl e (List.mem_cons_self _ _), hsub⟩)
    · have h1 : addEdge s e = s := if_neg h
      rw [h1]
      exact ih _ (fun e' he' => hl e' (List.mem_cons_of_mem _ he')) hnd hsub

theorem iterate_closeStep_fix_or_grow (g : ConfigGraph) (s : List String) (k : ℕ) :
    (closeStep g)^[k + 1] s = (closeStep g)^[k] s ∨
      s.length + k ≤ ((closeStep g)^[k] s).length := by
  induction k with
  | zero => exact Or.inr (by simp)
  | succ k ih =>
    rcases ih with h | h
    · left
      rw [Function.iterate_succ_apply' (closeStep g) (k + 1) s, h,
        ← Function.iterate_succ_apply' (closeStep g) k s]
      exact h
    · rcases foldl_addEdge_fix_or_grow g.buildDeps ((closeStep g)^[k] s) with h2 | h2
      · left
        have hfix : closeStep g ((closeStep g)^[k] s) = (closeStep g)^[k] s := h2
        rw [Function.iterate_succ_apply' (closeStep g) (k + 1) s,
          Function.iterate_succ_apply' (closeStep g) k s, hfix, hfix]
      · right
        have : (closeStep g)^[k + 1] s = closeStep g ((closeStep g)^[k] s) :=
          Function.iterate_succ_apply' (closeStep g) k s
        rw [this]
        have h3 : ((closeStep g)^[k] s).length <
            (g.buildDeps.foldl addEdge ((closeStep g)^[k] s)).length := h2
        simp only [closeStep]
        omega

theorem iterate_closeStep_nodup_subset (g : ConfigGraph) (n : String) (k : ℕ) :
    ((closeStep g)^[k] [n]).Nodup ∧
      (closeStep g)^[k] [n] ⊆ n :: g.buildDeps.map (fun e => e.1) := by
  induction k with
  | zero =>
    simp only [Function.iterate_zero_apply]
    refine ⟨List.nodup_singleton n, ?_⟩
    intro x hx
    rw [List.mem_singleton] at hx
    rw [hx]
    exact List.mem_cons_self _ _
  | succ k ih =>
    rw [Function.iterate_succ_apply' (closeStep g) k]
    exact nodup_subset_foldl_addEdge (n :: g.buildDeps.map (fun e => e.1)) g.buildDeps
      ((closeStep g)^[k] [n])
      (fun e he => List.mem_cons_of_mem _ (List.mem_map_of_mem _ he))
      ih.1 ih.2

theorem iterate_closeStep_length_le (g : ConfigGraph) (n : String) (k : ℕ) :
    ((closeStep g)^[k] [n]).length ≤ g.buildDeps.length + 1 := by
  obtain ⟨hnd, hsub⟩ := iterate_closeStep_nodup_subset g n k
  have h1 : ((closeStep g)^[k] [n]).toFinset.card = ((closeStep g)^[k] [n]).length :=
    List.toFinset_card_of_nodup hnd
  have h2 : ((closeStep g)^[k] [n]).toFinset ⊆
      (n :: g.buildDeps.map (fun e => e.1)).toFinset := by
    intro x hx
    rw [List.mem_toFinset] at hx ⊢
    exact hsub hx
  have h3 := Finset.card_le_card h2
  have h4 := List.toFinset_card_le (l := n :: g.buildDeps.map (fun e => e.1))
  simp only [List.length_cons, List.length_map] at h4
  omega

theorem closeStep_reachableFrom (g : ConfigGraph) (n : String) :
    closeStep g (reachableFrom g n) = reachableFrom g n := by
  unfold reachableFrom
  rcases iterate_closeStep_fix_or_grow g [n] (g.buildDeps.length + 1) with h | h
  · rw [← Function.iterate_succ_apply' (closeStep g) (g.buildDeps.length + 1)]
    exact h
  · exfalso
    have := iterate_closeStep_length_le g n (g.buildDeps.length + 1)
    simp only [List.length_singleton] at h
    omega

theorem foldl_addEdge_closed (l : List (String × String)) (s : List String)
    (h : l.foldl addEdge s = s) : ∀ e ∈ l, e.2 ∈ s → e.1 ∈ s := by
  induction l generalizing s with
  | nil => intro e he; exact absurd he (List.not_mem_nil e)
  | cons e l ih =>
    simp only [List.foldl_cons] at h
    have hsub : addEdge s e ⊆ s := by
      intro x hx
      have := subset_foldl_addEdge l (addEdge s e) hx
      rw [h] at this
      exact this
    have hguard : ¬(e.2 ∈ s ∧ e.1 ∉ s) := by
      intro hg
      have h1 : addEdge s e = e.1 :: s := if_pos hg
      exact hg.2 (hsub (h1 ▸ List.mem_cons_self e.1 s))
    have h1 : addEdge s e = s := if_neg hguard
    rw [h1] at h
    intro e' he' hmem
    rcases List.mem_cons.mp he' with rfl | he'
    · by_cases hm : e'.1 ∈ s
      · exact hm
      · exact absurd ⟨hmem, hm⟩ hguard
    · exact ih s h e' he' hmem

theorem reachableFrom_closed (g : ConfigGraph) (n : String) :
    ∀ e ∈ g.buildDeps, e.2 ∈ reachableFrom g n → e.1 ∈ reachableFrom g n :=
  foldl_addEdge_closed g.buildDeps (reachableFrom g n) (closeStep_reachableFrom g n)

theorem foldl_addEdge_sound (g : ConfigGraph) (n : String) (l : List (String × String))
    (s : List String) (hl : ∀ e ∈ l, e ∈ g.buildDeps)
    (hs : ∀ x ∈ s, x = n ∨ DependsOn g x n) :
    ∀ x ∈ l.foldl addEdge s, x = n ∨ DependsOn g x n := by
  induction l generalizing s with
  | nil => exact hs
  | cons e l ih =>
    simp only [List.foldl_cons]
    refine ih _ (fun e' he' => hl e' (List.mem_cons_of_mem _ he')) ?_
    intro x hx
    unfold addEdge at hx
    split at hx
    · next hg =>
      rcases List.mem_cons.mp hx with rfl | hx
      · have hedge : (e.1, e.2) ∈ g.buildDeps := by
          have := hl e (List.mem_cons_self _ _)
          simpa using this
        rcases hs e.2 hg.1 with h2 | h2
        · exact Or.inr (DependsOn.direct (h2 ▸ hedge))
        · exact Or.inr (DependsOn.step hedge h2)
      · exact hs x hx
    · exact hs x hx

theorem self_mem_reachableFrom (g : ConfigGraph) (n : String) :
    n ∈ reachableFrom g n := by
  have : [n] ⊆ reachableFrom g n := by
    unfold reachableFrom
    generalize g.buildDeps.length + 1 = k
    induction k with
    | zero => exact List.Subset.refl _
    | succ k ih =>
      rw [Function.iterate_succ_apply' (closeStep g) k]
      exact List.Subset.trans ih (subset_foldl_addEdge g.buildDeps _)
  exact this (List.mem_singleton_self n)

theorem mem_reachableFrom_of_dependsOn (g : ConfigGraph) {a b : String}
    (h : DependsOn g a b) : a ∈ reachableFrom g b := by
  induction h with
  | direct hmem => exact reachableFrom_closed g _ _ hmem (self_mem_reachableFrom g _)
  | step hmem hdc ih => exact reachableFrom_closed g _ _ hmem ih

theorem mem_reachableFrom (g : ConfigGraph) (n : String) (x : String) :
    x ∈ reachableFrom g n ↔ x = n ∨ DependsOn g x n := by
  constructor
  · have main : ∀ k, ∀ y ∈ (closeStep g)^[k] [n], y = n ∨ DependsOn g y n := by
      intro k
      induction k with
      | zero =>
        intro y hy
        simp only [Function.iterate_zero_apply] at hy
        exact Or.inl (List.mem_singleton.mp hy)
      | succ k ih =>
        rw [Function.iterate_succ_apply' (closeStep g) k]
        exact foldl_addEdge_sound g n g.buildDeps ((closeStep g)^[k] [n])
          (fun e he => he) ih
    exact main (g.buildDeps.length + 1) x
  · rintro (rfl | hdep)
    · exact self_mem_reachableFrom g x
    · exact mem_reachableFrom_of_dependsOn g hdep

theorem mem_getDependants_build_recursive (g : ConfigGraph) (n m : String) :
    m ∈ g.getDependants { nodeType := "build", name := n, recursive := true } ↔
      DependsOn g m n ∧ m ≠ n := by
  have hq : g.getDependants { nodeType := "build", name := n, recursive := true }
      = (reachableFrom g n).filter (fun m => !(m == n)) := rfl
  rw [hq, List.mem_filter]
  simp only [mem_reachableFrom, Bool.not_eq_true', beq_eq_false_iff_ne, ne_eq]
  constructor
  · rintro ⟨rfl | hd, hne⟩
    · exact absurd rfl hne
    · exact ⟨hd, hne⟩
  · rintro ⟨hd, hne⟩
    exact ⟨Or.inr hd, hne⟩

/-! ### The watch-mode change handler -/

theorem flatten_map_singleton {α β : Type} (f : α → β) (l : List α) :
    (l.map (fun x => [f x])).flatten = l.map f := by
  induction l with
  | nil => rfl
  | cons x l ih => simp [ih]

theorem changeHandler_eq (graph newGraph : ConfigGraph) (moduleNames : List String)
    (moduleName : String) :
    changeHandler graph moduleNames newGraph moduleName =
      (([moduleName] ++
          newGraph.getDependants
            { nodeType := "build", name := moduleName, recursive := true }).filter
        (fun m => m ∈ moduleNames)).map
        (fun m => { moduleName := m, graph := graph, force := true }) := by
  unfold changeHandler BuildTask.factory
  exact flatten_map_singleton _ _

/-- C1: on a change notification for a requested module, the change
handler builds `force = true` tasks for the changed module and for each
recursive build dependant that is in the originally requested module set,
and builds no task for any module outside the requested set. -/
theorem changeHandler_tasks_spec (graph newGraph : ConfigGraph)
    (moduleNames : List String) (moduleName : String)
    (hmod : moduleName ∈ moduleNames) :
    (∀ t ∈ changeHandler graph moduleNames newGraph moduleName,
        t.force = true ∧ t.moduleName ∈ moduleNames ∧
          (t.moduleName = moduleName ∨
            t.moduleName ∈ newGraph.getDependants
              { nodeType := "build", name := moduleName, recursive := true })) ∧
      (∃ t ∈ changeHandler graph moduleNames newGraph moduleName,
        t.moduleName = moduleName) ∧
      (∀ d ∈ newGraph.getDependants
          { nodeType := "build", name := moduleName, recursive := true },
        d ∈ moduleNames →
          ∃ t ∈ changeHandler graph moduleNames newGraph moduleName, t.moduleName = d) := by
  rw [changeHandler_eq]
  refine ⟨?_, ?_, ?_⟩
  · intro t ht
    obtain ⟨m, hm, rfl⟩ := List.mem_map.mp ht
    obtain ⟨hmem, hscope⟩ := List.mem_filter.mp hm
    refine ⟨rfl, by simpa using hscope, ?_⟩
    rcases List.mem_cons.mp hmem with rfl | hmem
    · exact Or.inl rfl
    · exact Or.inr hmem
  · refine ⟨{ moduleName := moduleName, graph := graph, force := true }, ?_, rfl⟩
    refine List.mem_map.mpr ⟨moduleName, ?_, rfl⟩
    exact List.mem_filter.mpr ⟨List.mem_cons_self _ _, by simpa using hmod⟩
  · intro d hd hdscope
    refine ⟨{ moduleName := d, graph := graph, force := true }, ?_, rfl⟩
    refine List.mem_map.mpr ⟨d, ?_, rfl⟩
    exact List.mem_filter.mpr ⟨List.mem_cons_of_mem _ hd, by simpa using hdscope⟩

/-- C1 witness: the spec instantiated on a concrete two-module graph. -/
theorem changeHandler_tasks_spec_witness :
    ("B" : String) ∈ ["A", "B"] ∧
      ∃ t ∈ changeHandler { modules := ["A", "B"], buildDeps := [("A", "B")] } ["A", "B"]
          { modules := ["A", "B"], buildDeps := [("A", "B")] } "B",
        t.moduleName = "B" :=
  ⟨by decide,
    (changeHandler_tasks_spec { modules := ["A", "B"], buildDeps := [("A", "B")] }
      { modules := ["A", "B"], buildDeps := [("A", "B")] } ["A", "B"] "B" (by decide)).2.1⟩

/-- C2 (counterexample): with requested modules `[A, B, C]` where `A`
depends on `B` and `B` depends on `C`, a change event for `C` does
produce a `force = true` task for `A`, although `A` is only transitively
affected — contradicting the claim that `A` is not re-executed. -/
theorem changeHandler_chain_counterexample :
    ∃ t ∈ changeHandler { modules := ["A", "B", "C"], buildDeps := [("A", "B"), ("B", "C")] }
        ["A", "B", "C"]
        { modules := ["A", "B", "C"], buildDeps := [("A", "B"), ("B", "C")] } "C",
      t.moduleName = "A" ∧ t.force = true := by
  refine ⟨{ moduleName := "A",
            graph := { modules := ["A", "B", "C"], buildDeps := [("A", "B"), ("B", "C")] },
            force := true }, ?_, rfl, rfl⟩
  decide

/-- C2 (amended): with requested modules `[A, B, C]` where `A` depends on
`B` and `B` depends on `C`, a change event for `C` produces `force = true`
tasks for exactly `C`, `A` and `B`: every module of the chain is
re-executed, including `A`, because `A` is a transitive build dependant
of `C` inside the requested scope. -/
theorem changeHandler_chain_tasks :
    (changeHandler { modules := ["A", "B", "C"], buildDeps := [("A", "B"), ("B", "C")] }
        ["A", "B", "C"]
        { modules := ["A", "B", "C"], buildDeps := [("A", "B"), ("B", "C")] } "C").map
      (fun t => (t.moduleName, t.force)) = [("C", true), ("A", true), ("B", true)] := by
  decide

/-- C3: the change handler constructs every new task against the original
graph snapshot captured by the `BuildCommand.action` closure, not against
the refreshed snapshot it receives for the change event — shown here on a
concrete refresh where the two snapshots differ. -/
theorem changeHandler_stale_graph :
    (∀ t ∈ changeHandler { modules := ["A", "B"], buildDeps := [("A", "B")] } ["A", "B"]
        { modules := ["A", "B"], buildDeps := [] } "B",
      t.graph = { modules := ["A", "B"], buildDeps := [("A", "B")] }) ∧
      ({ modules := ["A", "B"], buildDeps := [("A", "B")] } : ConfigGraph) ≠
        { modules := ["A", "B"], buildDeps := [] } := by
  constructor
  · decide
  · decide

/-- C4: the change handler derives its affected set from
`getDependants { nodeType := "build", recursive := true }` on the new
graph, and membership in that query result is exactly transitive build
dependency: the affected set is the full transitive closure of build
dependants of the changed module. -/
theorem changeHandler_affected_is_transitive_closure (graph newGraph : ConfigGraph)
    (moduleNames : List String) (moduleName d : String) :
    (changeHandler graph moduleNames newGraph moduleName =
        (([moduleName] ++
            newGraph.getDependants
              { nodeType := "build", name := moduleName, recursive := true }).filter
          (fun m => m ∈ moduleNames)).map
          (fun m => { moduleName := m, graph := graph, force := true })) ∧
      (d ∈ newGraph.getDependants
          { nodeType := "build", name := moduleName, recursive := true } ↔
        DependsOn newGraph d moduleName ∧ d ≠ moduleName) :=
  ⟨changeHandler_eq graph newGraph moduleNames moduleName,
    mem_getDependants_build_recursive newGraph moduleName d⟩

/-- C5: the initial build tasks are exactly one task per requested module
(all modules when no names are given), each carrying the caller-supplied
`force` flag and the current graph snapshot. -/
theorem buildInitialTasks_spec (g : ConfigGraph) (ns : List String) (force : Bool)
    (argsModules : Option (List String)) :
    ((buildInitialTasks g none force).map (fun t => t.moduleName) = g.modules) ∧
      ((buildInitialTasks g (some ns) force).map (fun t => t.moduleName) =
        g.modules.filter (fun m => m ∈ ns)) ∧
      (∀ t ∈ buildInitialTasks g argsModules force, t.force = force ∧ t.graph = g) := by
  have heq : ∀ a : Option (List String),
      buildInitialTasks g a force =
        (g.getModules a).map (fun m => { moduleName := m, graph := g, force := force }) := by
    intro a
    unfold buildInitialTasks BuildTask.factory
    exact flatten_map_singleton _ _
  refine ⟨?_, ?_, ?_⟩
  · rw [heq, List.map_map]
    exact List.map_id _
  · rw [heq, List.map_map]
    exact List.map_id _
  · intro t ht
    rw [heq] at ht
    obtain ⟨m, _, rfl⟩ := List.mem_map.mp ht
    exact ⟨rfl, rfl⟩

/-- C5 witness: the spec instantiated on a concrete graph. -/
theorem buildInitialTasks_spec_witness :
    (buildInitialTasks { modules := ["A", "B"], buildDeps := [("A", "B")] } none true).map
        (fun t => t.moduleName) = ["A", "B"] :=
  (buildInitialTasks_spec { modules := ["A", "B"], buildDeps := [("A", "B")] } [] true none).1

/-! ### At-most-one execution per dedup key -/

/-- Per-key accounting invariant: every start is accounted for by an
in-flight run or a recorded result, and per key there is at most one of
those in total. -/
def EngineState.Wf (s : EngineState) : Prop :=
  ∀ k : TaskKey,
    s.started.count k = s.inFlight.count k + (s.results.map Prod.fst).count k ∧
      s.inFlight.count k + (s.results.map Prod.fst).count k ≤ 1

theorem engineState_init_wf : EngineState.init.Wf := by
  intro k
  simp [EngineState.init]

theorem engineStep_submit_eq (s : EngineState) (k : TaskKey) :
    engineStep s (.submit k) =
      if k ∈ s.inFlight ∨ k ∈ s.results.map Prod.fst then s
      else { s with inFlight := k :: s.inFlight, started := k :: s.started } := rfl

theorem engineStep_complete_eq (s : EngineState) (k : TaskKey) (r : Nat) :
    engineStep s (.complete k r) =
      if k ∈ s.inFlight then
        { s with inFlight := s.inFlight.erase k, results := (k, r) :: s.results }
      else s := rfl

theorem engineStep_wf (s : EngineState) (ev : EngineEvent) (hwf : s.Wf) :
    (engineStep s ev).Wf := by
  cases ev with
  | submit k =>
    rw [engineStep_submit_eq]
    by_cases h : k ∈ s.inFlight ∨ k ∈ s.results.map Prod.fst
    · rw [if_pos h]
      exact hwf
    · rw [if_neg h]
      push_neg at h
      intro k'
      obtain ⟨heq, hle⟩ := hwf k'
      have hf : s.inFlight.count k = 0 := List.count_eq_zero.mpr h.1
      have hr : (s.results.map Prod.fst).count k = 0 := List.count_eq_zero.mpr h.2
      by_cases hk : k' = k
      · subst hk
        simp only [List.count_cons_self]
        omega
      · simp only [List.count_cons_of_ne hk]
        omega
  | complete k r =>
    rw [engineStep_complete_eq]
    by_cases h : k ∈ s.inFlight
    · rw [if_pos h]
      intro k'
      obtain ⟨heq, hle⟩ := hwf k'
      have hpos : 0 < s.inFlight.count k := List.count_pos_iff.mpr h
      by_cases hk : k' = k
      · subst hk
        simp only [List.map_cons, List.count_cons_self, List.count_erase_self]
        omega
      · simp only [List.map_cons, List.count_cons_of_ne hk, List.count_erase_of_ne hk]
        omega
    · rw [if_neg h]
      exact hwf

theorem engineRun_foldl_wf (evs : List EngineEvent) (s : EngineState) (hwf : s.Wf) :
    (evs.foldl engineStep s).Wf := by
  induction evs generalizing s with
  | nil => exact hwf
  | cons ev evs ih => exact ih (engineStep s ev) (engineStep_wf s ev hwf)

/-- A key is tracked when it is in flight or has a recorded result. -/
def EngineState.Tracked (s : EngineState) (k : TaskKey) : Prop :=
  k ∈ s.inFlight ∨ k ∈ s.results.map Prod.fst

theorem engineStep_tracked (s : EngineState) (ev : EngineEvent) (k : TaskKey)
    (h : s.Tracked k) : (engineStep s ev).Tracked k := by
  cases ev with
  | submit k' =>
    rw [engineStep_submit_eq]
    by_cases hc : k' ∈ s.inFlight ∨ k' ∈ s.results.map Prod.fst
    · rw [if_pos hc]
      exact h
    · rw [if_neg hc]
      rcases h with h | h
      · exact Or.inl (List.mem_cons_of_mem _ h)
      · exact Or.inr h
  | complete k' r =>
    rw [engineStep_complete_eq]
    by_cases hc : k' ∈ s.inFlight
    · rw [if_pos hc]
      rcases h with h | h
      · by_cases hk : k = k'
        · exact Or.inr (by simp [hk])
        · refine Or.inl ?_
          show k ∈ s.inFlight.erase k'
          exact (List.mem_erase_of_ne hk).mpr h
      · exact Or.inr (by simpa using Or.inr (List.mem_map.mp h))
    · rw [if_neg hc]
      exact h

theorem engineStep_submit_tracked (s : EngineState) (k : TaskKey) :
    (engineStep s (.submit k)).Tracked k := by
  rw [engineStep_submit_eq]
  by_cases hc : k ∈ s.inFlight ∨ k ∈ s.results.map Prod.fst
  · rw [if_pos hc]
    exact hc
  · rw [if_neg hc]
    exact Or.inl (List.mem_cons_self _ _)

theorem engineRun_foldl_tracked (evs : List EngineEvent) (s : EngineState) (k : TaskKey)
    (h : s.Tracked k) : (evs.foldl engineStep s).Tracked k := by
  induction evs generalizing s with
  | nil => exact h
  | cons ev evs ih => exact ih (engineStep s ev) (engineStep_tracked s ev k h)

theorem engineRun_submitted_tracked (evs : List EngineEvent) (s : EngineState) (k : TaskKey)
    (h : EngineEvent.submit k ∈ evs) : (evs.foldl engineStep s).Tracked k := by
  induction evs generalizing s with
  | nil => exact absurd h (List.not_mem_nil _)
  | cons ev evs ih =>
    rcases List.mem_cons.mp h with rfl | h
    · exact engineRun_foldl_tracked evs _ k (engineStep_submit_tracked s k)
    · exact ih (engineStep s ev) h

theorem pair_eq_of_count_le_one {l : List (TaskKey × Nat)} {k : TaskKey} {r₁ r₂ : Nat}
    (h : (l.map Prod.fst).count k ≤ 1) (h₁ : (k, r₁) ∈ l) (h₂ : (k, r₂) ∈ l) :
    r₁ = r₂ := by
  induction l with
  | nil => exact absurd h₁ (List.not_mem_nil _)
  | cons p l ih =>
    obtain ⟨pk, pr⟩ := p
    rcases List.mem_cons.mp h₁ with he₁ | ht₁
    · injection he₁ with hk hr
      subst hk
      subst hr
      rcases List.mem_cons.mp h₂ with he₂ | ht₂
      · injection he₂ with hk2 hr2
        exact hr2.symm
      · exfalso
        have hmem : k ∈ l.map Prod.fst := List.mem_map.mpr ⟨(k, r₂), ht₂, rfl⟩
        have hpos : 0 < (l.map Prod.fst).count k := List.count_pos_iff.mpr hmem
        simp only [List.map_cons, List.count_cons_self] at h
        omega
    · rcases List.mem_cons.mp h₂ with he₂ | ht₂
      · injection he₂ with hk hr
        subst hk
        subst hr
        exfalso
        have hmem : k ∈ l.map Prod.fst := List.mem_map.mpr ⟨(k, r₁), ht₁, rfl⟩
        have hpos : 0 < (l.map Prod.fst).count k := List.count_pos_iff.mpr hmem
        simp only [List.map_cons, List.count_cons_self] at h
        omega
      · refine ih ?_ ht₁ ht₂
        simp only [List.map_cons, List.count_cons] at h
        split at h <;> omega

/-- C6: for any interleaving of submissions and completions, at most one
execution starts per dedup key; once the key has been submitted, exactly
one execution starts; and all recorded results for the key are identical,
so every submitter observes the same result. -/
theorem engine_at_most_one_execution (evs : List EngineEvent) (k : TaskKey) (r₁ r₂ : Nat) :
    ((engineRun evs).started.count k ≤ 1) ∧
      (EngineEvent.submit k ∈ evs → (engineRun evs).started.count k = 1) ∧
      ((k, r₁) ∈ (engineRun evs).results → (k, r₂) ∈ (engineRun evs).results → r₁ = r₂) := by
  have hwf : (engineRun evs).Wf := engineRun_foldl_wf evs EngineState.init engineState_init_wf
  obtain ⟨heq, hle⟩ := hwf k
  refine ⟨by omega, ?_, ?_⟩
  · intro hsub
    have htr : (engineRun evs).Tracked k :=
      engineRun_submitted_tracked evs EngineState.init k hsub
    rcases htr with h | h
    · have := List.count_pos_iff.mpr h
      omega
    · have := List.count_pos_iff.mpr h
      omega
  · intro h₁ h₂
    exact pair_eq_of_count_le_one (by omega) h₁ h₂

/-- C6 witness: three concurrent submissions of the same key interleaved
with a completion yield exactly one started execution. -/
theorem engine_at_most_one_execution_witness :
    EngineEvent.submit { kind := "build", name := "m", version := "v1" } ∈
        [EngineEvent.submit { kind := "build", name := "m", version := "v1" },
          EngineEvent.submit { kind := "build", name := "m", version := "v1" },
          EngineEvent.complete { kind := "build", name := "m", version := "v1" } 7,
          EngineEvent.submit { kind := "build", name := "m", version := "v1" }] ∧
      (engineRun
          [EngineEvent.submit { kind := "build", name := "m", version := "v1" },
            EngineEvent.submit { kind := "build", name := "m", version := "v1" },
            EngineEvent.complete { kind := "build", name := "m", version := "v1" } 7,
            EngineEvent.submit { kind := "build", name := "m", version := "v1" }]).started.count
        { kind := "build", name := "m", version := "v1" } = 1 :=
  ⟨by decide,
    (engine_at_most_one_execution
        [EngineEvent.submit { kind := "build", name := "m", version := "v1" },
          EngineEvent.submit { kind := "build", name := "m", version := "v1" },
          EngineEvent.complete { kind := "build", name := "m", version := "v1" } 7,
          EngineEvent.submit { kind := "build", name := "m", version := "v1" }]
        { kind := "build", name := "m", version := "v1" } 0 0).2.1 (by decide)⟩

/-! ### Failure propagation -/

theorem lookup_cons_eq {β : Type} (k : String) (v : β) (l : List (String × β)) :
    ((k, v) :: l).lookup k = some v := by
  simp [List.lookup]

theorem lookup_cons_ne {β : Type} {k k' : String} (v : β) (l : List (String × β))
    (h : k ≠ k') : ((k', v) :: l).lookup k = l.lookup k := by
  simp [List.lookup, beq_eq_false_iff_ne.mpr h]

theorem lookup_append_of_mem {β : Type} {l₁ l₂ : List (String × β)} {k : String}
    (h : k ∈ l₁.map Prod.fst) : (l₁ ++ l₂).lookup k = l₁.lookup k := by
  induction l₁ with
  | nil => simp at h
  | cons p l ih =>
    obtain ⟨pk, pv⟩ := p
    by_cases hk : k = pk
    · subst hk
      rw [List.cons_append, lookup_cons_eq, lookup_cons_eq]
    · rw [List.cons_append, lookup_cons_ne _ _ hk, lookup_cons_ne _ _ hk]
      apply ih
      simp only [List.map_cons, List.mem_cons] at h
      exact h.resolve_left hk

theorem lookup_append_of_not_mem {β : Type} {l₁ l₂ : List (String × β)} {k : String}
    (h : k ∉ l₁.map Prod.fst) : (l₁ ++ l₂).lookup k = l₂.lookup k := by
  induction l₁ with
  | nil => rfl
  | cons p l ih =>
    obtain ⟨pk, pv⟩ := p
    simp only [List.map_cons, List.mem_cons, not_or] at h
    rw [List.cons_append, lookup_cons_ne _ _ h.1]
    exact ih h.2

theorem lookup_eq_none_of_not_mem {β : Type} {l : List (String × β)} {k : String}
    (h : k ∉ l.map Prod.fst) : l.lookup k = none := by
  induction l with
  | nil => rfl
  | cons p l ih =>
    obtain ⟨pk, pv⟩ := p
    simp only [List.map_cons, List.mem_cons, not_or] at h
    rw [lookup_cons_ne _ _ h.1]
    exact ih h.2

theorem lookup_of_mem_nodup {β : Type} {l : List (String × β)} {k : String} {v : β}
    (hnd : (l.map Prod.fst).Nodup) (h : (k, v) ∈ l) : l.lookup k = some v := by
  induction l with
  | nil => exact absurd h (List.not_mem_nil _)
  | cons p l ih =>
    obtain ⟨pk, pv⟩ := p
    simp only [List.map_cons, List.nodup_cons] at hnd
    rcases List.mem_cons.mp h with he | ht
    · injection he with h1 h2
      subst h1
      subst h2
      exact lookup_cons_eq _ _ _
    · by_cases hk : k = pk
      · subst hk
        exact absurd (List.mem_map.mpr ⟨(k, v), ht, rfl⟩) hnd.1
      · rw [lookup_cons_ne _ _ hk]
        exact ih hnd.2 ht

theorem processTasks_cons (hook : String → Bool) (k : String) (ds : List String)
    (rest : List (String × List String)) (acc : List (String × ResultKind))
    (inv : List String) :
    processTasks hook ((k, ds) :: rest) acc inv =
      if ds.all (fun d => acc.lookup d == some ResultKind.success) then
        processTasks hook rest (acc ++ [(k, if hook k then .success else .failed)]) (inv ++ [k])
      else
        processTasks hook rest (acc ++ [(k, .skippedDependencyFailure)]) inv := rfl

theorem processTasks_results_ext (hook : String → Bool)
    (ts : List (String × List String)) :
    ∀ (acc : List (String × ResultKind)) (inv : List String),
      ∃ ext, (processTasks hook ts acc inv).1 = acc ++ ext ∧
        ext.map Prod.fst = ts.map Prod.fst := by
  induction ts with
  | nil =>
    intro acc inv
    exact ⟨[], by simp [processTasks], rfl⟩
  | cons t rest ih =>
    intro acc inv
    obtain ⟨k, ds⟩ := t
    rw [processTasks_cons]
    by_cases hall : ds.all (fun d => acc.lookup d == some ResultKind.success) = true
    · rw [if_pos hall]
      obtain ⟨ext, hext, hkeys⟩ :=
        ih (acc ++ [(k, if hook k then .success else .failed)]) (inv ++ [k])
      refine ⟨(k, if hook k then .success else .failed) :: ext, ?_, ?_⟩
      · rw [hext, List.append_assoc]
        rfl
      · simp [hkeys]
    · rw [if_neg hall]
      obtain ⟨ext, hext, hkeys⟩ := ih (acc ++ [(k, ResultKind.skippedDependencyFailure)]) inv
      refine ⟨(k, ResultKind.skippedDependencyFailure) :: ext, ?_, ?_⟩
      · rw [hext, List.append_assoc]
        rfl
      · simp [hkeys]

theorem processTasks_results_keys (hook : String → Bool)
    (ts : List (String × List String)) (acc : List (String × ResultKind))
    (inv : List String) :
    (processTasks hook ts acc inv).1.map Prod.fst = acc.map Prod.fst ++ ts.map Prod.fst := by
  obtain ⟨ext, hext, hkeys⟩ := processTasks_results_ext hook ts acc inv
  rw [hext, List.map_append, hkeys]

theorem processTasks_invoked_mem (hook : String → Bool)
    (ts : List (String × List String)) :
    ∀ (acc : List (String × ResultKind)) (inv : List String) (k : String),
      k ∈ (processTasks hook ts acc inv).2 →
        k ∈ inv ∨ ∃ r, (k, r) ∈ (processTasks hook ts acc inv).1 ∧
          r ≠ ResultKind.skippedDependencyFailure := by
  induction ts with
  | nil =>
    intro acc inv k hk
    exact Or.inl hk
  | cons t rest ih =>
    intro acc inv k hk
    obtain ⟨k', ds'⟩ := t
    rw [processTasks_cons] at hk ⊢
    by_cases hall : ds'.all (fun d => acc.lookup d == some ResultKind.success) = true
    · rw [if_pos hall] at hk ⊢
      rcases ih _ _ k hk with hin | hex
      · rcases List.mem_append.mp hin with hin | hin
        · exact Or.inl hin
        · right
          rw [List.mem_singleton] at hin
          subst hin
          refine ⟨if hook k then .success else .failed, ?_, ?_⟩
          · obtain ⟨ext, hext, _⟩ :=
              processTasks_results_ext hook rest
                (acc ++ [(k, if hook k then .success else .failed)]) (inv ++ [k])
            rw [hext]
            exact List.mem_append.mpr (Or.inl (List.mem_append.mpr (Or.inr (List.mem_singleton_self _))))
          · cases hook k <;> simp
      · exact Or.inr hex
    · rw [if_neg hall] at hk ⊢
      exact ih _ _ k hk

theorem processTasks_skip_of_dep (hook : String → Bool)
    (ts : List (String × List String)) :
    ∀ (acc : List (String × ResultKind)) (inv : List String) (a d : String)
      (ds : List String),
      (acc.map Prod.fst ++ ts.map Prod.fst).Nodup → (a, ds) ∈ ts → d ∈ ds →
        (processTasks hook ts acc inv).1.lookup d ≠ some ResultKind.success →
        a ∉ inv →
        (processTasks hook ts acc inv).1.lookup a = some ResultKind.skippedDependencyFailure ∧
          a ∉ (processTasks hook ts acc inv).2 := by
  induction ts with
  | nil =>
    intro acc inv a d ds _ hmem
    exact absurd hmem (List.not_mem_nil _)
  | cons t rest ih =>
    intro acc inv a d ds hnd hmem hd hlook hninv
    obtain ⟨k, kds⟩ := t
    rcases List.mem_cons.mp hmem with he | ht
    · injection he with ha hds
      subst ha
      subst hds
      have hguard : ¬(ds.all (fun d' => acc.lookup d' == some ResultKind.success) = true) := by
        intro hall
        have hds : acc.lookup d = some ResultKind.success := by
          have := List.all_eq_true.mp hall d hd
          exact eq_of_beq this
        have hdk : d ∈ acc.map Prod.fst := by
          by_contra hnm
          rw [lookup_eq_none_of_not_mem hnm] at hds
          exact Option.noConfusion hds
        obtain ⟨ext, hext, _⟩ := processTasks_results_ext hook ((a, ds) :: rest) acc inv
        rw [hext, lookup_append_of_mem hdk, hds] at hlook
        exact hlook rfl
      rw [processTasks_cons, if_neg hguard] at hlook ⊢
      have hanin : a ∉ acc.map Prod.fst := by
        rw [List.nodup_append] at hnd
        intro hmem'
        exact hnd.2.2 hmem' (by simp)
      have hlooka :
          (processTasks hook rest (acc ++ [(a, ResultKind.skippedDependencyFailure)]) inv).1.lookup a
            = some ResultKind.skippedDependencyFailure := by
        obtain ⟨ext, hext, _⟩ :=
          processTasks_results_ext hook rest (acc ++ [(a, ResultKind.skippedDependencyFailure)]) inv
        rw [hext, lookup_append_of_mem (by simp), lookup_append_of_not_mem hanin,
          lookup_cons_eq]
      refine ⟨hlooka, ?_⟩
      intro hain
      rcases processTasks_invoked_mem hook rest _ _ a hain with hin | ⟨r, hr, hrne⟩
      · exact hninv hin
      · have hkeysnd :
            ((processTasks hook rest (acc ++ [(a, ResultKind.skippedDependencyFailure)]) inv).1.map
              Prod.fst).Nodup := by
          rw [processTasks_results_keys]
          simpa [List.append_assoc] using hnd
        have := lookup_of_mem_nodup hkeysnd hr
        rw [hlooka] at this
        injection this with hc
        exact hrne hc.symm
    · have hak : a ≠ k := by
        rw [List.nodup_append] at hnd
        have hkn : (k :: rest.map Prod.fst).Nodup := by
          simpa using hnd.2.1
        rw [List.nodup_cons] at hkn
        intro he
        subst he
        exact hkn.1 (List.mem_map.mpr ⟨(a, ds), ht, rfl⟩)
      rw [processTasks_cons] at hlook ⊢
      by_cases hall : kds.all (fun d' => acc.lookup d' == some ResultKind.success) = true
      · rw [if_pos hall] at hlook ⊢
        refine ih _ _ a d ds ?_ ht hd hlook ?_
        · simpa [List.append_assoc] using hnd
        · intro hmem'
          rcases List.mem_append.mp hmem' with h' | h'
          · exact hninv h'
          · rw [List.mem_singleton] at h'
            exact hak h'
      · rw [if_neg hall] at hlook ⊢
        refine ih _ _ a d ds ?_ ht hd hlook hninv
        simpa [List.append_assoc] using hnd

/-- C7: whenever a task's execution fails, every task transitively
depending on it — at any distance — is recorded as
skipped-due-to-dependency-failure and its execution hook is never
invoked. -/
theorem taskGraph_failure_propagation (hook : String → Bool)
    (tasks : List (String × List String)) (a b : String)
    (hnd : (tasks.map Prod.fst).Nodup)
    (hdep : TaskDependsOn tasks a b)
    (hfail : (engineRound hook tasks).1.lookup b = some ResultKind.failed) :
    (engineRound hook tasks).1.lookup a = some ResultKind.skippedDependencyFailure ∧
      a ∉ (engineRound hook tasks).2 := by
  have hnd0 : (([] : List (String × ResultKind)).map Prod.fst ++ tasks.map Prod.fst).Nodup := by
    simpa using hnd
  have main : ∀ x y : String, TaskDependsOn tasks x y →
      (engineRound hook tasks).1.lookup y ≠ some ResultKind.success →
      (engineRound hook tasks).1.lookup x = some ResultKind.skippedDependencyFailure ∧
        x ∉ (engineRound hook tasks).2 := by
    intro x y hxy
    induction hxy with
    | direct hmem hd =>
      intro hny
      exact processTasks_skip_of_dep hook tasks [] [] _ _ _ hnd0 hmem hd hny
        (List.not_mem_nil _)
    | step hmem hd hcy ih =>
      intro hny
      obtain ⟨hcskip, _⟩ := ih hny
      refine processTasks_skip_of_dep hook tasks [] [] _ _ _ hnd0 hmem hd ?_
        (List.not_mem_nil _)
      intro hcon
      rw [show processTasks hook tasks [] [] = engineRound hook tasks from rfl,
        hcskip] at hcon
      injection hcon with hcon
      exact ResultKind.noConfusion hcon
  exact main a b hdep (by rw [hfail]; intro hcon; injection hcon with hcon; exact ResultKind.noConfusion hcon)

/-- C7 witness: in the chain A depends on B depends on C with B's hook
failing, C succeeds, B fails, and A is skipped without its hook being
invoked. -/
theorem taskGraph_failure_propagation_witness :
    (engineRound (fun k => !(k == "B")) [("C", []), ("B", ["C"]), ("A", ["B"])]).1.lookup "A"
        = some ResultKind.skippedDependencyFailure ∧
      "A" ∉ (engineRound (fun k => !(k == "B")) [("C", []), ("B", ["C"]), ("A", ["B"])]).2 :=
  taskGraph_failure_propagation (fun k => !(k == "B"))
    [("C", []), ("B", ["C"]), ("A", ["B"])] "A" "B" (by decide)
    (@TaskDependsOn.direct [("C", []), ("B", ["C"]), ("A", ["B"])] "A" "B" ["B"]
      (by decide) (by decide)) (by decide)

/-! ### enterpriseInit -/

/-- The result record `enterpriseInit` produces when no token is stored. -/
def noTokenInit : EnterpriseInitResult :=
  { clientAuthToken := none, secrets := [], warnedInvalidToken := false,
    checkedToken := false, fetchedSecrets := false }

/-- C8: `enterpriseInit` throws a `ConfigurationError` exactly when a
client auth token is stored and the project config lacks its domain or
its id; in every other case it returns the stored token together with a
secrets map, the secrets are fetched exactly when the token validity
check succeeds, an invalid token yields a warning and empty secrets, and
with no stored token neither the validity check nor the secrets fetch is
made. -/
theorem enterpriseInit_spec (tok dom pid : Option String) (valid : Bool)
    (bs : List (String × String)) :
    ((∃ err, enterpriseInit tok dom pid valid bs = Except.error err) ↔
        (truthy tok = true ∧ (truthy dom = false ∨ truthy pid = false))) ∧
      (∀ st, enterpriseInit tok dom pid valid bs = Except.ok st →
        st.clientAuthToken = tok ∧
          st.secrets = (if truthy tok && truthy dom && truthy pid && valid then bs else []) ∧
          st.fetchedSecrets = (truthy tok && truthy dom && truthy pid && valid) ∧
          st.checkedToken = (truthy tok && truthy dom && truthy pid) ∧
          (truthy tok = true → truthy dom = true → truthy pid = true → valid = false →
            st.warnedInvalidToken = true ∧ st.secrets = []) ∧
          (truthy tok = false →
            st.secrets = [] ∧ st.checkedToken = false ∧ st.fetchedSecrets = false)) := by
  cases htok : truthy tok <;> cases hdom : truthy dom <;> cases hpid : truthy pid <;>
    cases valid <;>
      simp [enterpriseInit, htok, hdom, hpid]

/-- C8 witness: a stored token with a missing domain throws, and without
a stored token the collaborators are never called and the secrets are
empty. -/
theorem enterpriseInit_spec_witness :
    (∃ err, enterpriseInit (some "token") none (some "projid") true [("k", "v")]
        = Except.error err) ∧
      noTokenInit.secrets = [] ∧ noTokenInit.checkedToken = false ∧
        noTokenInit.fetchedSecrets = false :=
  ⟨(enterpriseInit_spec (some "token") none (some "projid") true [("k", "v")]).1.mpr
      ⟨rfl, Or.inl rfl⟩,
    ((enterpriseInit_spec none none none true []).2 noTokenInit rfl).2.2.2.2.2 rfl⟩

/-! ### Kubectl argument preparation -/

theorem prepareArgs_shape (provider : KubectlProviderConfig) (q : KubectlParams) :
    prepareArgs provider q =
      ["--context=" ++ provider.context]
        ++ optArg "--kubeconfig=" provider.kubeconfig
        ++ optArg "--namespace=" q.ns
        ++ optArg "--kubeconfig=" q.configPath
        ++ q.args := by
  simp [prepareArgs, List.append_assoc]

/-- C9: every kubectl wrapper invocation (`stdout`, `exec`, `spawn`,
`spawnAndWait`, `json`) passes `--context=` as the first argument,
followed by `--kubeconfig=` when the provider configures one and
`--namespace=` when one is given (and the explicit `configPath`
kubeconfig), before the caller's arguments, which keep their original
order (`json` possibly appends a trailing `--output=json`). -/
theorem kubectlArgv_structure (m : KubectlMethod) (provider : KubectlProviderConfig)
    (p : KubectlParams) :
    ∃ tail,
      kubectlArgv m provider p =
          ["--context=" ++ provider.context]
            ++ optArg "--kubeconfig=" provider.kubeconfig
            ++ optArg "--namespace=" p.ns
            ++ optArg "--kubeconfig=" p.configPath
            ++ tail ∧
        (tail = p.args ∨ tail = p.args ++ ["--output=json"]) ∧
        (kubectlArgv m provider p).head? = some ("--context=" ++ provider.context) := by
  have hhead : ∀ q : KubectlParams,
      (prepareArgs provider q).head? = some ("--context=" ++ provider.context) := by
    intro q
    rw [prepareArgs_shape]
    rfl
  cases m with
  | json =>
    by_cases h : "--output=json" ∈ p.args
    · refine ⟨p.args, ?_, Or.inl rfl, ?_⟩
      · show prepareArgs provider _ = _
        rw [show (if "--output=json" ∈ p.args then p.args else p.args ++ ["--output=json"])
            = p.args from if_pos h]
        exact prepareArgs_shape provider p
      · exact hhead _
    · refine ⟨p.args ++ ["--output=json"], ?_, Or.inr rfl, ?_⟩
      · show prepareArgs provider _ = _
        rw [show (if "--output=json" ∈ p.args then p.args else p.args ++ ["--output=json"])
            = p.args ++ ["--output=json"] from if_neg h]
        exact prepareArgs_shape provider
          { ns := p.ns, configPath := p.configPath, args := p.args ++ ["--output=json"] }
      · exact hhead _
  | stdout => exact ⟨p.args, prepareArgs_shape provider p, Or.inl rfl, hhead p⟩
  | exec => exact ⟨p.args, prepareArgs_shape provider p, Or.inl rfl, hhead p⟩
  | spawn => exact ⟨p.args, prepareArgs_shape provider p, Or.inl rfl, hhead p⟩
  | spawnAndWait => exact ⟨p.args, prepareArgs_shape provider p, Or.inl rfl, hhead p⟩

/-! ### RunWorkflowCommand -/

theorem runWorkflowSteps_all_ok (steps : List (Except String Unit)) :
    ∀ s : Nat, (∀ o ∈ steps, o = Except.ok ()) →
      runWorkflowSteps steps s = (List.range' s steps.length, none) := by
  induction steps with
  | nil =>
    intro s _
    rfl
  | cons o rest ih =>
    intro s hok
    have ho : o = Except.ok () := hok o (List.mem_cons_self _ _)
    subst ho
    show (s :: (runWorkflowSteps rest (s + 1)).1, (runWorkflowSteps rest (s + 1)).2) = _
    rw [ih (s + 1) (fun o' ho' => hok o' (List.mem_cons_of_mem _ ho'))]
    rw [List.length_cons, List.range'_succ]

theorem runWorkflowSteps_first_error (steps : List (Except String Unit)) :
    ∀ (s i : Nat) (e : String), steps[i]? = some (Except.error e) →
      (∀ j, j < i → steps[j]? = some (Except.ok ())) →
      runWorkflowSteps steps s = (List.range' s (i + 1), some e) := by
  induction steps with
  | nil =>
    intro s i e hi _
    simp at hi
  | cons o rest ih =>
    intro s i e hi hfirst
    cases i with
    | zero =>
      have : o = Except.error e := by simpa using hi
      subst this
      rw [List.range'_succ]
      rfl
    | succ i =>
      have ho : o = Except.ok () := by
        have := hfirst 0 (Nat.succ_pos i)
        simpa using this
      subst ho
      show (s :: (runWorkflowSteps rest (s + 1)).1, (runWorkflowSteps rest (s + 1)).2) = _
      have hi' : rest[i]? = some (Except.error e) := by simpa using hi
      have hfirst' : ∀ j, j < i → rest[j]? = some (Except.ok ()) := by
        intro j hj
        have := hfirst (j + 1) (Nat.succ_lt_succ hj)
        simpa using this
      rw [ih (s + 1) i e hi' hfirst']
      simp [List.range'_succ]

/-- C10: the workflow command runs steps strictly in declared order, one
at a time; when every step succeeds all of them are invoked in order, and
when a step's command throws, the error propagates out and no later step
is invoked. -/
theorem runWorkflow_sequential (steps : List (Except String Unit)) (i : Nat) (e : String) :
    ((∀ o ∈ steps, o = Except.ok ()) →
        runWorkflow steps = (List.range steps.length, none)) ∧
      (steps[i]? = some (Except.error e) →
        (∀ j, j < i → steps[j]? = some (Except.ok ())) →
        runWorkflow steps = (List.range (i + 1), some e)) := by
  constructor
  · intro hok
    rw [List.range_eq_range']
    exact runWorkflowSteps_all_ok steps 0 hok
  · intro hi hfirst
    rw [List.range_eq_range']
    exact runWorkflowSteps_first_error steps 0 i e hi hfirst

/-- C10 witness: a workflow whose second step throws invokes exactly the
first two steps, in order, and propagates the error. -/
theorem runWorkflow_sequential_witness :
    runWorkflow [Except.ok (), Except.error "boom", Except.ok ()] = ([0, 1], some "boom") :=
  (runWorkflow_sequential [Except.ok (), Except.error "boom", Except.ok ()] 1 "boom").2
    rfl (by
      intro j hj
      have hj0 : j = 0 := by omega
      subst hj0
      rfl)

end Garden
